import Mathlib

/-!
# Verification of the append-log key-value store (`pickledb-async.py`)

A shallow embedding of the async `PickleDB` class: an append-only JSON-lines
log, a write buffer (`self._batch`), an in-memory read cache (`self._cache`),
an operation counter (`self._operation_count`) meant to trigger periodic
compaction (`_cleanup_removed_keys`), and the public `set` / `remove` / `get` /
`all` operations.

Modelling choices, all read off the source:
* JSON values are modelled by `JVal` (strings, integers, booleans, null);
  only equality and "is it a string" matter to any statement below.
* Every line ever written to the log file is a one-field JSON object:
  `set` appends `{key: value}`, `remove` appends `{"__remove__": key}`,
  and compaction rewrites one `{key: value}` line per surviving key.
  A line is therefore a `Rec` (field name + field value).
* A Python `dict` is an insertion-ordered association list with pairwise
  distinct keys: assignment overwrites in place, new keys append at the end,
  `del` removes the entry.  `dinsert` / `ddel` implement exactly that; on
  key-distinct lists `ddel` (a filter) agrees with Python's single-entry `del`.
* The file system is the `file` field: the happy path (no I/O errors) is
  modelled, which is what the claims assume; the interrupted compaction
  rewrite is modelled separately (`rewriteInterrupted`).
* The `asyncio.Lock` serializes everything; operations are modelled as
  sequential state transformers.
* Keys are `String`s: both `set` and `remove` coerce the key with `str(key)`
  before use.
-/

/-- A JSON value as serialized by `orjson`: only string-ness and equality of
values are relevant to the store's control flow. -/
inductive JVal where
  | jstr : String → JVal
  | jnum : Int → JVal
  | jbool : Bool → JVal
  | jnull : JVal
deriving DecidableEq

/-- One line of the log file: a one-field JSON object `{name: val}`.
A `set` writes `{key: value}`; a `remove` writes `{"__remove__": key}`. -/
structure Rec where
  name : String
  val : JVal
deriving DecidableEq

/-- A Python dict as an insertion-ordered association list. -/
abbrev Dict := List (String × JVal)

/-- Python dict lookup `d[k]` / `d.get(k)`: the value at the unique entry
whose key is `k`, if any (first match; dict keys are pairwise distinct). -/
def dget? : Dict → String → Option JVal
  | [], _ => none
  | p :: ps, k => if p.1 = k then some p.2 else dget? ps k

/-- Python `k in d`. -/
def dmem (m : Dict) (k : String) : Bool :=
  (dget? m k).isSome

/-- Python dict assignment `d[k] = v`: overwrite in place if the key is
present, else append the new entry at the end. -/
def dinsert : Dict → String → JVal → Dict
  | [], k, v => [(k, v)]
  | p :: ps, k, v => if p.1 = k then (k, v) :: ps else p :: dinsert ps k v

/-- Python `del d[k]` on a key-distinct dict: drop the entry with key `k`. -/
def ddel (m : Dict) (k : String) : Dict :=
  m.filter (fun p => p.1 ≠ k)

/-- The state of one `PickleDB` instance plus the contents of its log file.
`batch` is `self._batch`, `opCount` is `self._operation_count`, `cache` is
`self._cache`, `file` is the record sequence stored at `self.location`. -/
structure PickleDB where
  batch : List Rec
  opCount : Nat
  cache : Dict
  file : List Rec
  batchSize : Nat
  cleanupInterval : Nat
deriving DecidableEq

/-- `PickleDB.__init__` over an existing log file: configuration is stored and
`_batch`, `_operation_count`, `_cache` start empty — the log file is NOT read
into the cache at construction time. -/
def openDB (file : List Rec) (batchSize cleanupInterval : Nat) : PickleDB :=
  { batch := [], opCount := 0, cache := [], file := file,
    batchSize := batchSize, cleanupInterval := cleanupInterval }

/-- One step of the compactor's replay loop in `_cleanup_removed_keys`:
if the line has a `"__remove__"` field, delete `entry["__remove__"]` from the
state when it is a key of it (a non-string removal target is never a dict key,
so it deletes nothing); otherwise `state.update(entry)`. -/
def replayStep (state : Dict) (r : Rec) : Dict :=
  if r.name = "__remove__" then
    match r.val with
    | JVal.jstr k => if dmem state k then ddel state k else state
    | _ => state
  else
    dinsert state r.name r.val

/-- The replay of the whole log performed by `_cleanup_removed_keys`. -/
def replay (file : List Rec) : Dict :=
  file.foldl replayStep []

/-- `_cleanup_removed_keys`: replay the log into `state`, rewrite the file
with one `{key: value}` line per entry of `state`, and install `state` as the
new cache.  (The happy path; the file exists whenever this is reached, since
a flush has just appended to it.) -/
def PickleDB.cleanup (db : PickleDB) : PickleDB :=
  let state := replay db.file
  { db with file := state.map (fun p => { name := p.1, val := p.2 }),
            cache := state }

/-- `_save_batch` (happy path): append the whole batch to the file, clear the
batch, then add the length of the ALREADY CLEARED batch to the operation
counter — this is the source's `self._batch.clear()` followed by
`self._operation_count += len(self._batch)`, so the counter gains zero — and
run the cleanup, resetting the counter, if the counter reached the interval. -/
def PickleDB.saveBatch (db : PickleDB) : PickleDB × Bool :=
  let clearedBatch : List Rec := []
  let db1 : PickleDB :=
    { db with file := db.file ++ db.batch,
              batch := clearedBatch,
              opCount := db.opCount + clearedBatch.length }
  if db1.opCount ≥ db1.cleanupInterval then
    ({ PickleDB.cleanup db1 with opCount := 0 }, true)
  else
    (db1, true)

/-- `PickleDB.set` (key already in its `str` form): push `{key: value}` on the
batch, update the cache, and flush when the batch has reached `batch_size`. -/
def PickleDB.set (db : PickleDB) (key : String) (v : JVal) : PickleDB × Bool :=
  let db1 : PickleDB :=
    { db with batch := db.batch ++ [{ name := key, val := v }],
              cache := dinsert db.cache key v }
  if db1.batch.length ≥ db1.batchSize then PickleDB.saveBatch db1 else (db1, true)

/-- `PickleDB.remove` (key already in its `str` form): push
`{"__remove__": key}` on the batch, delete the key from the cache when
present, and flush when the batch has reached `batch_size`. -/
def PickleDB.remove (db : PickleDB) (key : String) : PickleDB × Bool :=
  let db1 : PickleDB := { db with
    batch := db.batch ++ [{ name := "__remove__", val := JVal.jstr key }],
    cache := if dmem db.cache key then ddel db.cache key else db.cache }
  if db1.batch.length ≥ db1.batchSize then PickleDB.saveBatch db1 else (db1, true)

/-- The scan of the log file performed by `PickleDB.get` on a cache miss:
return the value of the FIRST line having the key as a field, else `None`. -/
def scanFile : List Rec → String → Option JVal
  | [], _ => none
  | r :: rs, key => if r.name = key then some r.val else scanFile rs key

/-- `PickleDB.get` (key already in its `str` form): the cached value when the
key is in the cache, otherwise the front-to-back file scan. -/
def PickleDB.get (db : PickleDB) (key : String) : Option JVal :=
  match dget? db.cache key with
  | some v => some v
  | none => scanFile db.file key

/-- `PickleDB.all`: the SET of keys of the cache together with every field
name occurring in the file (Python returns `list(keys)` of a `set`, in
unspecified order; the deduplicated list below carries the same membership). -/
def PickleDB.all (db : PickleDB) : List String :=
  (db.cache.map Prod.fst ++ db.file.map Rec.name).dedup

/-- A call of the public mutating API. -/
inductive Op where
  | opset : String → JVal → Op
  | oprem : String → Op
deriving DecidableEq

/-- The key argument of a call. -/
def Op.key : Op → String
  | opset k _ => k
  | oprem k => k

/-- Execute one call, keeping the resulting state. -/
def applyOp (db : PickleDB) : Op → PickleDB
  | Op.opset k v => (PickleDB.set db k v).1
  | Op.oprem k => (PickleDB.remove db k).1

/-- Execute a sequence of calls. -/
def runOps (db : PickleDB) : List Op → PickleDB
  | [] => db
  | op :: rest => runOps (applyOp db op) rest

/-- The canonical state of a log, in the words of the specification: fold the
records in order, a `Put` (any field name other than the reserved marker) sets
or overwrites its key, a `Tombstone` (`"__remove__"` field naming a key)
removes it. -/
def canonStep (m : Dict) (r : Rec) : Dict :=
  if r.name = "__remove__" then
    match r.val with
    | JVal.jstr k => ddel m k
    | _ => m
  else
    dinsert m r.name r.val

/-- Canonical state of a log: fold of `canonStep` from the empty mapping. -/
def canonical (file : List Rec) : Dict :=
  file.foldl canonStep []

/-- The record sequence the compactor writes: one `Put` line per entry of the
replayed state. -/
def compactRecords (file : List Rec) : List Rec :=
  (canonical file).map (fun p => { name := p.1, val := p.2 })

/-- The log file's on-disk contents if the compactor's rewrite is interrupted
after `j` of its per-key writes: `_cleanup_removed_keys` re-opens the log
itself with mode `"wb"` — truncating it, with no temporary file and no
rename — and then writes the compacted lines one at a time, so the file holds
exactly the first `j` compacted records at that point. -/
def rewriteInterrupted (file : List Rec) (j : Nat) : List Rec :=
  (compactRecords file).take j

/-- The key list of a dict. -/
def dkeys (m : Dict) : List String :=
  m.map Prod.fst

/-- A two-call run used in counterexamples — batch size 1 (every call
flushes), compaction interval 5: set "a" to 1, then remove "a".  After it the
cache is empty while the log holds the put and the tombstone. -/
def dbStale : PickleDB :=
  runOps (openDB [] 1 5) [Op.opset "a" (JVal.jnum 1), Op.oprem "a"]

/-- The same two-call run as `dbStale`, for the list-keys counterexample. -/
def dbStaleKeys : PickleDB :=
  runOps (openDB [] 1 5) [Op.opset "a" (JVal.jnum 1), Op.oprem "a"]

/-- A run that stores a plain value under the reserved marker name: set "x"
to 1, then set "__remove__" to the string "x" (batch size 1, both flushed). -/
def dbMarker : PickleDB :=
  runOps (openDB [] 1 5)
    [Op.opset "x" (JVal.jnum 1), Op.opset "__remove__" (JVal.jstr "x")]

/-- A one-flush run: set "a" to 2 with batch size 1. -/
def dbOnePut : PickleDB :=
  runOps (openDB [] 1 5) [Op.opset "a" (JVal.jnum 2)]

/-- A pre-existing log holding a superseded put for "a" and a put for "b"
that a later tombstone deletes. -/
def staleLog : List Rec :=
  [{ name := "a", val := JVal.jnum 1 }, { name := "a", val := JVal.jnum 2 },
   { name := "b", val := JVal.jnum 7 },
   { name := "__remove__", val := JVal.jstr "b" }]

/-!
## Dictionary lemmas
-/

theorem dmem_iff (m : Dict) (k : String) : dmem m k = true ↔ k ∈ dkeys m := by
  induction m with
  | nil => simp [dmem, dget?, dkeys]
  | cons p ps ih =>
    by_cases h : p.1 = k
    · simp [dmem, dget?, dkeys, h]
    · have hne : ¬ k = p.1 := fun hh => h hh.symm
      simpa [dmem, dget?, dkeys, h, hne] using ih

theorem dget?_dinsert_self (m : Dict) (k : String) (v : JVal) :
    dget? (dinsert m k v) k = some v := by
  induction m with
  | nil => simp [dinsert, dget?]
  | cons p ps ih =>
    by_cases h : p.1 = k
    · simp [dinsert, h, dget?]
    · simpa [dinsert, h, dget?] using ih

theorem dget?_dinsert_ne (m : Dict) (k k' : String) (v : JVal) (h : k' ≠ k) :
    dget? (dinsert m k v) k' = dget? m k' := by
  induction m with
  | nil => simp [dinsert, dget?, Ne.symm h]
  | cons p ps ih =>
    by_cases hp : p.1 = k
    · simp [dinsert, hp, dget?, Ne.symm h, hp ▸ Ne.symm h]
    · by_cases hp' : p.1 = k'
      · simp [dinsert, hp, dget?, hp', h]
      · simpa [dinsert, hp, dget?, hp'] using ih

theorem dget?_ddel_self (m : Dict) (k : String) : dget? (ddel m k) k = none := by
  induction m with
  | nil => simp [ddel, dget?]
  | cons p ps ih =>
    by_cases h : p.1 = k
    · simpa [ddel, List.filter_cons, h, dget?] using ih
    · simpa [ddel, List.filter_cons, h, dget?] using ih

theorem dget?_ddel_ne (m : Dict) (k k' : String) (h : k' ≠ k) :
    dget? (ddel m k) k' = dget? m k' := by
  induction m with
  | nil => simp [ddel, dget?]
  | cons p ps ih =>
    by_cases hp : p.1 = k
    · simpa [ddel, List.filter_cons, hp, dget?, Ne.symm h] using ih
    · by_cases hp' : p.1 = k'
      · simp [ddel, List.filter_cons, hp, dget?, hp', h]
      · simpa [ddel, List.filter_cons, hp, dget?, hp'] using ih

theorem ddel_of_not_mem (m : Dict) (k : String) (h : k ∉ dkeys m) :
    ddel m k = m := by
  apply List.filter_eq_self.mpr
  intro p hp
  have hpk : p.1 ≠ k := by
    intro hk
    exact h (by simp only [dkeys]; exact List.mem_map.mpr ⟨p, hp, hk⟩)
  simpa using hpk

theorem dinsert_of_not_mem (m : Dict) (k : String) (v : JVal) (h : k ∉ dkeys m) :
    dinsert m k v = m ++ [(k, v)] := by
  induction m with
  | nil => rfl
  | cons p ps ih =>
    simp only [dkeys, List.map_cons, List.mem_cons, not_or] at h
    have hp : ¬ p.1 = k := fun hh => h.1 hh.symm
    simp only [dinsert, hp, if_false, List.cons_append, List.cons.injEq, true_and]
    exact ih (by simpa [dkeys] using h.2)

theorem dkeys_dinsert (m : Dict) (k : String) (v : JVal) :
    dkeys (dinsert m k v) = if k ∈ dkeys m then dkeys m else dkeys m ++ [k] := by
  induction m with
  | nil => simp [dinsert, dkeys]
  | cons p ps ih =>
    by_cases h : p.1 = k
    · simp [dinsert, h, dkeys]
    · have hne : ¬ k = p.1 := fun hh => h hh.symm
      simp only [dkeys, List.map_cons, List.mem_cons, hne, false_or] at ih ⊢
      simp only [dinsert, h, if_false, List.map_cons]
      rw [ih]
      by_cases hm : k ∈ List.map Prod.fst ps <;> simp [hm]

theorem dkeys_ddel_sublist (m : Dict) (k : String) :
    (dkeys (ddel m k)).Sublist (dkeys m) := by
  simpa [dkeys, ddel] using List.Sublist.map Prod.fst (List.filter_sublist m)

theorem nodup_dkeys_dinsert (m : Dict) (k : String) (v : JVal)
    (h : (dkeys m).Nodup) : (dkeys (dinsert m k v)).Nodup := by
  rw [dkeys_dinsert]
  by_cases hk : k ∈ dkeys m
  · simpa [hk] using h
  · simp only [hk, if_false]
    refine List.Nodup.append h (List.nodup_singleton k) ?_
    intro a ha hb
    rw [List.mem_singleton] at hb
    subst hb
    exact hk ha

theorem nodup_dkeys_ddel (m : Dict) (k : String)
    (h : (dkeys m).Nodup) : (dkeys (ddel m k)).Nodup :=
  (dkeys_ddel_sublist m k).nodup h

/-!
## Replay / canonical state lemmas
-/

theorem replayStep_eq_canonStep (m : Dict) (r : Rec) :
    replayStep m r = canonStep m r := by
  unfold replayStep canonStep
  by_cases h : r.name = "__remove__"
  · simp only [h, if_true]
    cases r.val with
    | jstr k =>
      by_cases hm : dmem m k
      · simp [hm]
      · have hk : k ∉ dkeys m := fun hk => hm ((dmem_iff m k).mpr hk)
        simp [hm, ddel_of_not_mem m k hk]
    | jnum n => rfl
    | jbool b => rfl
    | jnull => rfl
  · simp [h]

theorem foldl_replayStep_eq (l : List Rec) (m : Dict) :
    l.foldl replayStep m = l.foldl canonStep m := by
  induction l generalizing m with
  | nil => rfl
  | cons r rs ih => simp only [List.foldl_cons, replayStep_eq_canonStep, ih]

theorem replay_eq_canonical (file : List Rec) : replay file = canonical file :=
  foldl_replayStep_eq file []

theorem canonical_append (xs ys : List Rec) :
    canonical (xs ++ ys) = ys.foldl canonStep (canonical xs) := by
  simp [canonical, List.foldl_append]

theorem marker_not_in_dkeys_foldl (l : List Rec) (m : Dict)
    (h : "__remove__" ∉ dkeys m) :
    "__remove__" ∉ dkeys (l.foldl canonStep m) := by
  induction l generalizing m with
  | nil => exact h
  | cons r rs ih =>
    rw [List.foldl_cons]
    refine ih _ ?_
    unfold canonStep
    by_cases hr : r.name = "__remove__"
    · simp only [hr, if_true]
      cases r.val with
      | jstr k => exact fun hm => h ((dkeys_ddel_sublist m k).mem hm)
      | jnum n => exact h
      | jbool b => exact h
      | jnull => exact h
    · simp only [hr, if_false]
      rw [dkeys_dinsert]
      by_cases hk : r.name ∈ dkeys m
      · simpa [hk] using h
      · simp only [hk, if_false, List.mem_append, List.mem_singleton]
        rintro (hm | hm)
        · exact h hm
        · exact hr hm.symm

theorem nodup_dkeys_canonStep (m : Dict) (r : Rec) (h : (dkeys m).Nodup) :
    (dkeys (canonStep m r)).Nodup := by
  unfold canonStep
  by_cases hr : r.name = "__remove__"
  · simp only [hr, if_true]
    cases r.val with
    | jstr k => exact nodup_dkeys_ddel m k h
    | jnum n => exact h
    | jbool b => exact h
    | jnull => exact h
  · simpa [hr] using nodup_dkeys_dinsert m r.name r.val h

theorem nodup_dkeys_foldl (l : List Rec) (m : Dict) (h : (dkeys m).Nodup) :
    (dkeys (l.foldl canonStep m)).Nodup := by
  induction l generalizing m with
  | nil => exact h
  | cons r rs ih => exact ih _ (nodup_dkeys_canonStep m r h)

theorem foldl_canonStep_puts (m : Dict) :
    ∀ acc : Dict, (dkeys m).Nodup → "__remove__" ∉ dkeys m →
      (∀ k ∈ dkeys m, k ∉ dkeys acc) →
      (m.map (fun p => ({ name := p.1, val := p.2 } : Rec))).foldl canonStep acc
        = acc ++ m := by
  induction m with
  | nil => intro acc _ _ _; simp
  | cons p ps ih =>
    intro acc hnd hmk hdisj
    simp only [List.map_cons, List.foldl_cons]
    have hpm : ¬ p.1 = "__remove__" := by
      intro hh
      exact hmk (by simp [dkeys, hh.symm])
    have hstep : canonStep acc { name := p.1, val := p.2 } = acc ++ [p] := by
      unfold canonStep
      simp only [hpm, if_false]
      rw [dinsert_of_not_mem acc p.1 p.2 (hdisj p.1 (by simp [dkeys]))]
    rw [hstep]
    have h1 : (dkeys ps).Nodup := by
      simpa [dkeys] using hnd.of_cons
    have h2 : "__remove__" ∉ dkeys ps := by
      intro hm
      exact hmk (by simp only [dkeys, List.map_cons]; exact List.mem_cons_of_mem _ hm)
    have h3 : ∀ k ∈ dkeys ps, k ∉ dkeys (acc ++ [p]) := by
      intro k hk
      simp only [dkeys, List.map_append, List.mem_append, List.map_cons, List.map_nil,
        List.mem_singleton, not_or]
      constructor
      · exact hdisj k (by simp only [dkeys, List.map_cons]; exact List.mem_cons_of_mem _ hk)
      · intro hkp
        have hmem : p.1 ∈ dkeys ps := hkp ▸ hk
        have hnd2 : (p.1 :: dkeys ps).Nodup := by
          simpa only [dkeys, List.map_cons] using hnd
        exact (List.nodup_cons.mp hnd2).1 hmem
    rw [ih (acc ++ [p]) h1 h2 h3, List.append_assoc]
    rfl

theorem canonical_puts (m : Dict) (hnd : (dkeys m).Nodup)
    (hmk : "__remove__" ∉ dkeys m) :
    canonical (m.map (fun p => ({ name := p.1, val := p.2 } : Rec))) = m := by
  simpa [canonical] using foldl_canonStep_puts m [] hnd hmk (by simp [dkeys])

theorem nodup_dkeys_canonical (file : List Rec) :
    (dkeys (canonical file)).Nodup :=
  nodup_dkeys_foldl file [] (by simp [dkeys])

theorem marker_not_in_canonical (file : List Rec) :
    "__remove__" ∉ dkeys (canonical file) :=
  marker_not_in_dkeys_foldl file [] (by simp [dkeys])

theorem cleanup_cache (db : PickleDB) : (PickleDB.cleanup db).cache = canonical db.file := by
  simp [PickleDB.cleanup, replay_eq_canonical]

theorem cleanup_file (db : PickleDB) :
    (PickleDB.cleanup db).file
      = (canonical db.file).map (fun p => ({ name := p.1, val := p.2 } : Rec)) := by
  simp [PickleDB.cleanup, replay_eq_canonical]

theorem canonical_cleanup_file (db : PickleDB) :
    canonical (PickleDB.cleanup db).file = canonical db.file := by
  rw [cleanup_file]
  exact canonical_puts _ (nodup_dkeys_canonical db.file) (marker_not_in_canonical db.file)

/-!
## Operation-level lemmas
-/

theorem canonical_snoc (l : List Rec) (r : Rec) :
    canonical (l ++ [r]) = canonStep (canonical l) r := by
  simp [canonical_append]

theorem remove_cache_eq_ddel (m : Dict) (k : String) :
    (if dmem m k then ddel m k else m) = ddel m k := by
  by_cases hm : dmem m k
  · simp [hm]
  · simp [hm, ddel_of_not_mem m k (fun hkk => hm ((dmem_iff m k).mpr hkk))]

theorem saveBatch_fst_cases (db : PickleDB) :
    (PickleDB.saveBatch db).1
      = if db.opCount ≥ db.cleanupInterval
          then { PickleDB.cleanup { db with file := db.file ++ db.batch, batch := [] } with
                   opCount := 0 }
          else { db with file := db.file ++ db.batch, batch := [] } := by
  unfold PickleDB.saveBatch
  by_cases h : db.opCount ≥ db.cleanupInterval
  · simp only [List.length_nil, Nat.add_zero, h, if_true]
  · simp only [List.length_nil, Nat.add_zero, h, if_false]

theorem saveBatch_snd (db : PickleDB) : (PickleDB.saveBatch db).2 = true := by
  unfold PickleDB.saveBatch
  by_cases h : db.opCount ≥ db.cleanupInterval
  · simp only [List.length_nil, Nat.add_zero, h, if_true]
  · simp only [List.length_nil, Nat.add_zero, h, if_false]

theorem inv_saveBatch (db : PickleDB)
    (h : db.cache = canonical (db.file ++ db.batch)) :
    (PickleDB.saveBatch db).1.cache
      = canonical ((PickleDB.saveBatch db).1.file ++ (PickleDB.saveBatch db).1.batch) := by
  rw [saveBatch_fst_cases]
  by_cases hc : db.opCount ≥ db.cleanupInterval
  · simp only [hc, if_true]
    show (PickleDB.cleanup _).cache = canonical ((PickleDB.cleanup _).file ++ [])
    rw [List.append_nil, cleanup_cache, canonical_cleanup_file]
  · simp only [hc, if_false]
    show db.cache = canonical ((db.file ++ db.batch) ++ [])
    rw [List.append_nil]
    exact h

theorem set_eq (db : PickleDB) (k : String) (v : JVal) :
    PickleDB.set db k v
      = (if (db.batch ++ [({ name := k, val := v } : Rec)]).length ≥ db.batchSize
          then PickleDB.saveBatch
                 { db with batch := db.batch ++ [{ name := k, val := v }],
                           cache := dinsert db.cache k v }
          else ({ db with batch := db.batch ++ [{ name := k, val := v }],
                          cache := dinsert db.cache k v }, true)) := by
  unfold PickleDB.set
  rfl

theorem remove_eq (db : PickleDB) (k : String) :
    PickleDB.remove db k
      = (if (db.batch
              ++ [({ name := "__remove__", val := JVal.jstr k } : Rec)]).length
            ≥ db.batchSize
          then PickleDB.saveBatch
                 { db with
                     batch := db.batch
                       ++ [{ name := "__remove__", val := JVal.jstr k }],
                     cache := if dmem db.cache k then ddel db.cache k
                              else db.cache }
          else ({ db with
                    batch := db.batch
                      ++ [{ name := "__remove__", val := JVal.jstr k }],
                    cache := if dmem db.cache k then ddel db.cache k
                             else db.cache }, true)) := by
  unfold PickleDB.remove
  rfl

theorem inv_applyOp (db : PickleDB) (op : Op) (hk : op.key ≠ "__remove__")
    (h : db.cache = canonical (db.file ++ db.batch)) :
    (applyOp db op).cache
      = canonical ((applyOp db op).file ++ (applyOp db op).batch) := by
  cases op with
  | opset k v =>
    have hk' : ¬ k = "__remove__" := hk
    have hinv : ({ db with batch := db.batch ++ [{ name := k, val := v }],
                           cache := dinsert db.cache k v } : PickleDB).cache
        = canonical (db.file ++ (db.batch ++ [{ name := k, val := v }])) := by
      show dinsert db.cache k v = _
      rw [← List.append_assoc, canonical_snoc, ← h]
      unfold canonStep
      simp only [hk', if_false]
    show (PickleDB.set db k v).1.cache
      = canonical ((PickleDB.set db k v).1.file ++ (PickleDB.set db k v).1.batch)
    rw [set_eq]
    by_cases hb :
        (db.batch ++ [({ name := k, val := v } : Rec)]).length ≥ db.batchSize
    · rw [if_pos hb]
      exact inv_saveBatch _ hinv
    · rw [if_neg hb]
      exact hinv
  | oprem k =>
    have hinv : ({ db with
                     batch := db.batch
                       ++ [{ name := "__remove__", val := JVal.jstr k }],
                     cache := if dmem db.cache k then ddel db.cache k
                              else db.cache } : PickleDB).cache
        = canonical (db.file
            ++ (db.batch ++ [{ name := "__remove__", val := JVal.jstr k }])) := by
      show (if dmem db.cache k then ddel db.cache k else db.cache) = _
      rw [← List.append_assoc, canonical_snoc, ← h, remove_cache_eq_ddel]
      unfold canonStep
      simp only [if_true]
    show (PickleDB.remove db k).1.cache
      = canonical ((PickleDB.remove db k).1.file
          ++ (PickleDB.remove db k).1.batch)
    rw [remove_eq]
    by_cases hb :
        (db.batch ++ [({ name := "__remove__", val := JVal.jstr k } : Rec)]).length
          ≥ db.batchSize
    · rw [if_pos hb]
      exact inv_saveBatch _ hinv
    · rw [if_neg hb]
      exact hinv

theorem inv_runOps (ops : List Op) (db : PickleDB)
    (hk : ∀ op ∈ ops, op.key ≠ "__remove__")
    (h : db.cache = canonical (db.file ++ db.batch)) :
    (runOps db ops).cache
      = canonical ((runOps db ops).file ++ (runOps db ops).batch) := by
  induction ops generalizing db with
  | nil => exact h
  | cons op rest ih =>
    exact ih (applyOp db op) (fun o ho => hk o (List.mem_cons_of_mem _ ho))
      (inv_applyOp db op (hk op (List.mem_cons_self op rest)) h)

theorem scanFile_eq_find (file : List Rec) (k : String) :
    scanFile file k = (file.find? (fun r => r.name = k)).map Rec.val := by
  induction file with
  | nil => rfl
  | cons r rs ih =>
    by_cases h : r.name = k
    · simp [scanFile, h, List.find?]
    · simpa [scanFile, h, List.find?] using ih

theorem runSets_batch_fill (pairs : List (String × JVal)) :
    ∀ db : PickleDB, pairs ≠ [] →
      db.batch.length + pairs.length = db.batchSize →
      db.opCount < db.cleanupInterval →
      (runOps db (pairs.map (fun p => Op.opset p.1 p.2))).batch = [] ∧
      (runOps db (pairs.map (fun p => Op.opset p.1 p.2))).file
        = db.file ++ db.batch
            ++ pairs.map (fun p => ({ name := p.1, val := p.2 } : Rec)) := by
  induction pairs with
  | nil => intro db hne _ _; exact absurd rfl hne
  | cons p ps ih =>
    intro db _ hlen hoc
    simp only [List.map_cons, runOps]
    have happ : applyOp db (Op.opset p.1 p.2) = (PickleDB.set db p.1 p.2).1 := rfl
    cases ps with
    | nil =>
      have hfull :
          (db.batch ++ [({ name := p.1, val := p.2 } : Rec)]).length
            ≥ db.batchSize := by
        simp only [List.length_append, List.length_cons, List.length_nil] at *
        omega
      rw [happ, set_eq, if_pos hfull, saveBatch_fst_cases]
      have hnoclean : ¬ db.opCount ≥ db.cleanupInterval := by omega
      simp only [hnoclean, if_false]
      simp [runOps, List.append_assoc]
    | cons q qs =>
      have hroom :
          ¬ (db.batch ++ [({ name := p.1, val := p.2 } : Rec)]).length
              ≥ db.batchSize := by
        simp only [List.length_append, List.length_cons, List.length_nil] at *
        omega
      rw [happ, set_eq, if_neg hroom]
      have hres := ih { db with batch := db.batch ++ [{ name := p.1, val := p.2 }],
                                cache := dinsert db.cache p.1 p.2 }
        (by simp) (by simp only [List.length_append, List.length_cons,
          List.length_nil] at *; omega) hoc
      refine ⟨hres.1, ?_⟩
      rw [hres.2]
      simp [List.append_assoc]

/-!
## The claims
-/

/-- C1 (confirmed).  Replay determinism: over an initially empty log, for any
sequence of set/remove calls whose keys all differ from the tombstone marker
string, whenever the write buffer is empty (i.e. after every flush, and in
particular after every compaction, which only runs straight after a flush)
the read cache equals the canonical state obtained by folding the append
log's records in order — a put sets/overwrites its key, a tombstone removes
it. -/
theorem replay_determinism (ops : List Op) (batchSize cleanupInterval : Nat)
    (hk : ∀ op ∈ ops, op.key ≠ "__remove__")
    (hflush : (runOps (openDB [] batchSize cleanupInterval) ops).batch = []) :
    (runOps (openDB [] batchSize cleanupInterval) ops).cache
      = canonical (runOps (openDB [] batchSize cleanupInterval) ops).file := by
  have h := inv_runOps ops (openDB [] batchSize cleanupInterval) hk
    (by simp [openDB, canonical])
  rw [hflush, List.append_nil] at h
  exact h

/-- Witness for C1: the run set "a" 1; remove "a" with batch size 1 flushes
after every call, and the cache then indeed replays from the log. -/
theorem replay_determinism_witness :
    (∀ op ∈ [Op.opset "a" (JVal.jnum 1), Op.oprem "a"], op.key ≠ "__remove__")
    ∧ (runOps (openDB [] 1 5) [Op.opset "a" (JVal.jnum 1), Op.oprem "a"]).batch
        = []
    ∧ (runOps (openDB [] 1 5) [Op.opset "a" (JVal.jnum 1), Op.oprem "a"]).cache
        = canonical
            (runOps (openDB [] 1 5)
              [Op.opset "a" (JVal.jnum 1), Op.oprem "a"]).file :=
  ⟨by decide, by decide,
    replay_determinism [Op.opset "a" (JVal.jnum 1), Op.oprem "a"] 1 5
      (by decide) (by decide)⟩

/-- C2 (code_bug).  The operation counter is supposed to count flushes and
trigger a compaction each time it reaches the configured interval, but
`_save_batch` increments it by the length of the batch list AFTER clearing
it, so it gains zero at every flush: it never increases across a save, and
in the concrete run (batch size 1, interval 1: set "a" 1; remove "a", hence
two flushes) it is still 0 at the end and the log still holds the tombstone
that the claimed compactions would have eliminated. -/
theorem operation_counter_never_advances :
    (∀ db : PickleDB, (PickleDB.saveBatch db).1.opCount ≤ db.opCount)
    ∧ (runOps (openDB [] 1 1) [Op.opset "a" (JVal.jnum 1), Op.oprem "a"]).opCount
        = 0
    ∧ (runOps (openDB [] 1 1) [Op.opset "a" (JVal.jnum 1), Op.oprem "a"]).file
        = [{ name := "a", val := JVal.jnum 1 },
           { name := "__remove__", val := JVal.jstr "a" }] := by
  refine ⟨?_, by decide, by decide⟩
  intro db
  rw [saveBatch_fst_cases]
  by_cases h : db.opCount ≥ db.cleanupInterval
  · simp [h]
  · simp [h]

/-- C3 counterexample.  The claim says an interrupted compaction rewrite
leaves the original log unchanged; but the rewrite truncates the log in
place, so a one-record log interrupted after 0 writes is empty — neither the
original file nor anything replaying to the original canonical state. -/
theorem compaction_rewrite_not_atomic :
    rewriteInterrupted [{ name := "a", val := JVal.jnum 1 }] 0
        ≠ [{ name := "a", val := JVal.jnum 1 }]
    ∧ canonical (rewriteInterrupted [{ name := "a", val := JVal.jnum 1 }] 0)
        ≠ canonical [{ name := "a", val := JVal.jnum 1 }] := by
  constructor
  · decide
  · decide

/-- C3 amended.  `_cleanup_removed_keys` rewrites the log IN PLACE: it opens
the log itself with mode "wb" (truncating it, with no temporary file and no
rename) and writes the compacted records one at a time; an interruption
after j writes therefore leaves a file that replays to only the first j
entries of the canonical state (the rest of the data is lost), and only the
completed rewrite reproduces the full compacted log. -/
theorem compaction_rewrite_in_place (file : List Rec) (j : Nat) :
    canonical (rewriteInterrupted file j) = (canonical file).take j
    ∧ rewriteInterrupted file (canonical file).length = compactRecords file := by
  constructor
  · unfold rewriteInterrupted compactRecords
    rw [← List.map_take]
    refine canonical_puts _ ?_ ?_
    · have hsub : (dkeys ((canonical file).take j)).Sublist
          (dkeys (canonical file)) := by
        unfold dkeys
        exact List.Sublist.map Prod.fst (List.take_sublist j (canonical file))
      exact hsub.nodup (nodup_dkeys_canonical file)
    · intro hm
      refine marker_not_in_canonical file ?_
      unfold dkeys at hm ⊢
      exact (List.Sublist.map Prod.fst
        (List.take_sublist j (canonical file))).mem hm
  · unfold rewriteInterrupted compactRecords
    rw [← List.length_map (canonical file)
      (fun p => ({ name := p.1, val := p.2 } : Rec))]
    exact List.take_length _

/-- C4 counterexample.  After set "a" 1; remove "a" (batch size 1, both
flushed) the key "a" is not in the read cache, yet `get` returns 1 — read
from the append log file, where the claim says it must return None. -/
theorem get_reads_log_file :
    dget? dbStale.cache "a" = none
    ∧ PickleDB.get dbStale "a" = some (JVal.jnum 1) := by
  constructor
  · decide
  · decide

/-- C4 amended.  `get` returns the cached value when the key is in the read
cache; otherwise it does NOT return absent but scans the append log file
front to back and returns the value of the first record whose field name is
the key (None only if no record names it). -/
theorem get_cache_then_scan (db : PickleDB) (k : String) :
    PickleDB.get db k
      = if dmem db.cache k then dget? db.cache k
        else (db.file.find? (fun r => r.name = k)).map Rec.val := by
  unfold PickleDB.get
  cases hm : dget? db.cache k with
  | none => simp [dmem, hm, scanFile_eq_find]
  | some v => simp [dmem, hm]

/-- C5 counterexample.  The marker is NOT reserved: setting the key
"__remove__" writes a put record that replay decodes as a tombstone, so
after set "x" 1; set "__remove__" "x" (both flushed) compaction deletes the
key "x" that a put had asserted live — and empties the whole cache. -/
theorem put_decoded_as_tombstone :
    dmem dbMarker.cache "x" = true
    ∧ dmem dbMarker.cache "__remove__" = true
    ∧ (PickleDB.cleanup dbMarker).cache = [] := by
  refine ⟨by decide, by decide, by decide⟩

/-- C5 amended.  The marker distinguishes tombstones from puts only for keys
other than the literal string "__remove__": for every key k different from
the marker and every value, a put record for (k, v) as the last log record
is decoded as a put — k is live with value v in the replayed state. -/
theorem put_live_unless_marker (file : List Rec) (k : String) (v : JVal)
    (h : k ≠ "__remove__") :
    dget? (canonical (file ++ [{ name := k, val := v }])) k = some v := by
  rw [canonical_snoc]
  unfold canonStep
  simp only [h, if_false]
  exact dget?_dinsert_self _ k v

/-- Witness for C5 amended: key "a", value 0, empty prior log. -/
theorem put_live_unless_marker_witness :
    ("a" : String) ≠ "__remove__"
    ∧ dget? (canonical ([] ++ [{ name := "a", val := JVal.jnum 0 }])) "a"
        = some (JVal.jnum 0) :=
  ⟨by decide, put_live_unless_marker [] "a" (JVal.jnum 0) (by decide)⟩

/-- C6 (confirmed).  Batch threshold: with batch size B = number of pairs
(B ≥ 1), starting from an empty write buffer (and a counter below the
interval, so the flush does not also compact — the counter never advances,
see C2), after exactly B set calls the buffer is empty and the log has
gained exactly the B new put records, in insertion order. -/
theorem batch_threshold (db : PickleDB) (pairs : List (String × JVal))
    (h0 : db.batch = []) (h1 : db.batchSize = pairs.length)
    (h2 : 1 ≤ pairs.length) (h3 : db.opCount < db.cleanupInterval) :
    (runOps db (pairs.map (fun p => Op.opset p.1 p.2))).batch = []
    ∧ (runOps db (pairs.map (fun p => Op.opset p.1 p.2))).file
        = db.file ++ pairs.map (fun p => ({ name := p.1, val := p.2 } : Rec)) := by
  have hne : pairs ≠ [] := by
    cases pairs
    · simp at h2
    · simp
  have hfill := runSets_batch_fill pairs db hne
    (by rw [h0]; simpa using h1.symm) h3
  rw [h0] at hfill
  simpa using hfill

/-- Witness for C6: two sets into a store with batch size 2. -/
theorem batch_threshold_witness :
    ((openDB [] 2 5).batch = [] ∧ (openDB [] 2 5).batchSize = 2
      ∧ 1 ≤ 2 ∧ (openDB [] 2 5).opCount < (openDB [] 2 5).cleanupInterval)
    ∧ (runOps (openDB [] 2 5)
        ([("a", JVal.jnum 1), ("b", JVal.jnum 2)].map
          (fun p => Op.opset p.1 p.2))).batch = []
    ∧ (runOps (openDB [] 2 5)
        ([("a", JVal.jnum 1), ("b", JVal.jnum 2)].map
          (fun p => Op.opset p.1 p.2))).file
        = (openDB [] 2 5).file
            ++ [("a", JVal.jnum 1), ("b", JVal.jnum 2)].map
                 (fun p => ({ name := p.1, val := p.2 } : Rec)) :=
  ⟨⟨rfl, rfl, by decide, by decide⟩,
    batch_threshold (openDB [] 2 5) [("a", JVal.jnum 1), ("b", JVal.jnum 2)]
      rfl rfl (by decide) (by decide)⟩

/-- C7 counterexample.  Removing a key that does not exist in the cache still
returns true, where the claim says remove reports key existence (false for a
missing key). -/
theorem remove_true_on_missing_key :
    dmem (openDB [] 2 5).cache "a" = false
    ∧ (PickleDB.remove (openDB [] 2 5) "a").2 = true := by
  constructor
  · decide
  · decide

/-- C7 amended.  `remove` returns the flush result when a flush is triggered
and true otherwise — with no I/O error it returns true regardless of whether
the key existed; existence only decides whether a cache entry is deleted. -/
theorem remove_always_true (db : PickleDB) (k : String) :
    (PickleDB.remove db k).2 = true := by
  rw [remove_eq]
  by_cases hb :
      (db.batch ++ [({ name := "__remove__", val := JVal.jstr k } : Rec)]).length
        ≥ db.batchSize
  · rw [if_pos hb]
    exact saveBatch_snd _
  · rw [if_neg hb]

/-- C8 counterexample.  After set "a" 1; remove "a" (both flushed) the cache
is empty, yet `all` reports the tombstone marker "__remove__" (and the dead
key "a") because it also unions in every field name found in the log file —
the claim says `all` returns exactly the cache's keys. -/
theorem all_returns_stale_keys :
    dbStaleKeys.cache = []
    ∧ "__remove__" ∈ PickleDB.all dbStaleKeys
    ∧ "a" ∈ PickleDB.all dbStaleKeys := by
  refine ⟨by decide, by decide, by decide⟩

/-- C8 amended.  `all` returns (as a set) the union of the cache's keys and
every field name occurring in any log record — including the tombstone
marker and superseded or deleted keys. -/
theorem all_mem_iff (db : PickleDB) (k : String) :
    k ∈ PickleDB.all db ↔ k ∈ dkeys db.cache ∨ k ∈ db.file.map Rec.name := by
  simp [PickleDB.all, dkeys, List.mem_dedup]

/-- C9 (confirmed).  Compaction idempotence: compacting twice with no writes
in between yields exactly the same log file and cache as compacting once
(even including key order), and when the cache agrees with the log's
canonical state (as it does after every flush, the only point where
compaction is triggered — see C1) `get` returns the same value for every
live key before and after the compaction. -/
theorem compaction_idempotent (db : PickleDB)
    (h : db.cache = canonical db.file) :
    (PickleDB.cleanup (PickleDB.cleanup db)).file = (PickleDB.cleanup db).file
    ∧ (PickleDB.cleanup (PickleDB.cleanup db)).cache
        = (PickleDB.cleanup db).cache
    ∧ ∀ k, dmem (canonical db.file) k = true →
        PickleDB.get db k = PickleDB.get (PickleDB.cleanup db) k := by
  refine ⟨?_, ?_, ?_⟩
  · rw [cleanup_file (PickleDB.cleanup db), canonical_cleanup_file,
      ← cleanup_file db]
  · rw [cleanup_cache (PickleDB.cleanup db), canonical_cleanup_file,
      ← cleanup_cache db]
  · intro k hk
    unfold PickleDB.get
    rw [h, cleanup_cache]
    cases hv : dget? (canonical db.file) k with
    | some v => simp [hv]
    | none =>
      unfold dmem at hk
      rw [hv] at hk
      simp at hk

/-- Witness for C9: a one-flush store holding "a" ↦ 2. -/
theorem compaction_idempotent_witness :
    dbOnePut.cache = canonical dbOnePut.file
    ∧ (PickleDB.cleanup (PickleDB.cleanup dbOnePut)).file
        = (PickleDB.cleanup dbOnePut).file
    ∧ dmem (canonical dbOnePut.file) "a" = true
    ∧ PickleDB.get dbOnePut "a" = PickleDB.get (PickleDB.cleanup dbOnePut) "a" :=
  ⟨by decide, (compaction_idempotent dbOnePut (by decide)).1, by decide,
    (compaction_idempotent dbOnePut (by decide)).2.2 "a" (by decide)⟩

/-- C10 (confirmed).  Constructing a store over an existing log never loads
the log into the cache (the cache starts empty); hence for any key — every
key is then absent from the cache — `get` scans the log and returns the
value of the EARLIEST record naming that key.  On the concrete `staleLog`
this yields the superseded value 1 for "a" (canonical value: 2) and the
deleted key "b"'s old value 7 (canonical: absent). -/
theorem fresh_store_scans_log (f : List Rec) (B I : Nat) (k : String) :
    (openDB f B I).cache = []
    ∧ PickleDB.get (openDB f B I) k
        = (f.find? (fun r => r.name = k)).map Rec.val
    ∧ PickleDB.get (openDB staleLog 3 3) "a" = some (JVal.jnum 1)
    ∧ dget? (canonical staleLog) "a" = some (JVal.jnum 2)
    ∧ PickleDB.get (openDB staleLog 3 3) "b" = some (JVal.jnum 7)
    ∧ dget? (canonical staleLog) "b" = none := by
  refine ⟨rfl, ?_, by decide, by decide, by decide, by decide⟩
  show PickleDB.get (openDB f B I) k = _
  unfold PickleDB.get openDB
  simp [dget?, scanFile_eq_find]
